import Mathlib

/-!
Shallow embedding of the `token_scheduler` crate (`src/lib.rs`).

Durations are modelled as `Int` nanosecond counts (the Rust `time::Duration`
exposes `num_nanoseconds : Option<i64>`; all scheduler arithmetic in the
source is done on those i64 nanosecond magnitudes, and the representability
hypotheses of the claims keep us inside the i64 range, so `Int` is faithful
there).  `TimePoint` is `Nat` (Rust `u64`; `to_time_point` only produces it
from a non-negative quotient).

The `BTreeMap<TimePoint, Vec<Task>>` is modelled as an association list
sorted by strictly ascending key — exactly the iteration order the BTreeMap
guarantees; well-formedness (sortedness) is stated separately and shown
invariant under the public operations.

The mock time source of the crate's test module (a virtual clock advanced by
`fast_forward` / `wait`) is modelled by a `now : Int` field of the scheduler
state; `Scheduler::next` reads `time_source.now()` from it.
-/

namespace TokenScheduler

/-- Rust `TaskBond`: whether a task fires once or re-arms after firing. -/
inductive TaskBond where
  | OneOff
  | Perpetual
deriving DecidableEq, Repr

/-- Rust `Task<Token>`: repeat interval, arm offset, payload, bond. -/
structure Task (Token : Type) where
  interval : Int
  run_offset : Int
  token : Token
  bond : TaskBond
deriving DecidableEq, Repr

namespace Task

/-- Rust `Task::next`: advance `run_offset` by `interval`, all else kept. -/
def next {Token : Type} (t : Task Token) : Task Token :=
  { t with run_offset := t.run_offset + t.interval }

/-- Rust `Task::schedule`: the due time `run_offset + interval`. -/
def schedule {Token : Type} (t : Task Token) : Int :=
  t.run_offset + t.interval

end Task

/-- Rust `type TimePoint = u64`. -/
abbrev TimePoint := Nat

/-- Rust `SchedulerAction` (private). -/
inductive SchedulerAction where
  | None
  | Wait (duration : Int)
  | Skip (time_points : List TimePoint)
  | Yield (time_point : TimePoint)
deriving DecidableEq, Repr

/-- Rust `Schedule<Token>`: the observable poll outcome. -/
inductive Schedule (Token : Type) where
  | NextIn (duration : Int)
  | Overrun (tokens : List Token)
  | Current (tokens : List Token)
deriving DecidableEq, Repr

/-- Rust `WaitError<Token>`. -/
inductive WaitError (Token : Type) where
  | Empty
  | Overrun (tokens : List Token)
deriving DecidableEq, Repr

/-- The bucket map: `BTreeMap<TimePoint, Vec<Task<Token>>>` as an assoc
list in ascending key order. -/
abbrev TaskMap (Token : Type) := List (TimePoint × List (Task Token))

/-- Rust `Scheduler<Token, TS>` with the mock time source inlined as `now`
(the virtual clock of the test `MockTimeSource`). -/
structure Scheduler (Token : Type) where
  time_point_interval : Int
  tasks : TaskMap Token
  now : Int
deriving DecidableEq, Repr

/-- BTreeMap lookup: the task vector stored at key `k` (empty if absent). -/
def lookupTasks {Token : Type} (k : TimePoint) : TaskMap Token → List (Task Token)
  | [] => []
  | (k', ts) :: rest => if k' = k then ts else lookupTasks k rest

/-- BTreeMap `remove`: drop the (first) entry with key `k`. -/
def eraseKey {Token : Type} (k : TimePoint) : TaskMap Token → TaskMap Token
  | [] => []
  | (k', ts) :: rest => if k' = k then rest else (k', ts) :: eraseKey k rest

/-- BTreeMap `entry(k).or_insert(vec![]).push(task)`: append `t` to the
vector at key `k`, keeping keys in ascending order. -/
def insertTask {Token : Type} (k : TimePoint) (t : Task Token) : TaskMap Token → TaskMap Token
  | [] => [(k, [t])]
  | (k', ts) :: rest =>
    if k < k' then (k, [t]) :: (k', ts) :: rest
    else if k = k' then (k', ts ++ [t]) :: rest
    else (k', ts) :: insertTask k t rest

/-- One step of the stable insertion into a `run_offset`-sorted list: place
`t` before the first element whose `run_offset` is not smaller. -/
def insertRO {Token : Type} (t : Task Token) : List (Task Token) → List (Task Token)
  | [] => [t]
  | u :: us => if u.run_offset < t.run_offset then u :: insertRO t us else t :: u :: us

/-- Rust `tasks.sort_by(|a, b| a.run_offset.cmp(&b.run_offset))`: a stable
sort by `run_offset` (Rust's `sort_by` is stable; a stable sort's output is
determined by the comparison key, so insertion sort is a faithful model). -/
def sortRO {Token : Type} : List (Task Token) → List (Task Token)
  | [] => []
  | t :: ts => insertRO t (sortRO ts)

namespace Scheduler

variable {Token : Type}

/-- Rust `Scheduler::to_time_point`: `(duration / interval) as u64`,
a floor division of non-negative nanosecond magnitudes. -/
def to_time_point (s : Scheduler Token) (duration : Int) : TimePoint :=
  (duration / s.time_point_interval).toNat

/-- Rust `Scheduler::to_duration`: `interval * time_point` nanoseconds. -/
def to_duration (s : Scheduler Token) (time_point : TimePoint) : Int :=
  s.time_point_interval * (time_point : Int)

/-- Rust `Scheduler::schedule` (private): insert a task at the bucket of its
due time. -/
def scheduleTask (s : Scheduler Token) (t : Task Token) : Scheduler Token :=
  { s with tasks := insertTask (s.to_time_point t.schedule) t s.tasks }

/-- Rust `Scheduler::after`: a OneOff task armed at `now`. -/
def after (s : Scheduler Token) (duration : Int) (token : Token) : Scheduler Token :=
  s.scheduleTask ⟨duration, s.now, token, TaskBond.OneOff⟩

/-- Rust `Scheduler::every`: a Perpetual task armed at `now`. -/
def every (s : Scheduler Token) (duration : Int) (token : Token) : Scheduler Token :=
  s.scheduleTask ⟨duration, s.now, token, TaskBond.Perpetual⟩

/-- Rust `Scheduler::next_action`: classify the earliest bucket against the
current bucket. -/
def next_action (s : Scheduler Token) : SchedulerAction :=
  let current := s.to_time_point s.now
  match s.tasks with
  | [] => SchedulerAction.None
  | (time_point, _) :: _ =>
    if current < time_point then
      SchedulerAction.Wait (s.to_duration time_point - s.now)
    else if time_point < current then
      SchedulerAction.Skip ((s.tasks.takeWhile (fun kv => kv.1 < current)).map (·.1))
    else
      SchedulerAction.Yield time_point

/-- The body of the rescheduling loop at the end of `Scheduler::consume`:
`match task.bond { Perpetual => self.schedule(task.next()), OneOff => () }`. -/
def reinsert (st : Scheduler Token) (t : Task Token) : Scheduler Token :=
  match t.bond with
  | TaskBond.Perpetual => st.scheduleTask t.next
  | TaskBond.OneOff => st

/-- Rust `Scheduler::consume`: remove the listed buckets, flatten, stable
sort by `run_offset`, report tokens, reschedule Perpetual tasks. -/
def consume (s : Scheduler Token) (time_points : List TimePoint) : List Token × Scheduler Token :=
  let collected := (time_points.map (fun tp => lookupTasks tp s.tasks)).flatten
  let removed : Scheduler Token :=
    { s with tasks := time_points.foldl (fun m tp => eraseKey tp m) s.tasks }
  let sorted := sortRO collected
  let tokens := sorted.map (·.token)
  let final := sorted.foldl reinsert removed
  (tokens, final)

/-- Rust `Scheduler::next`, with an explicit fuel bound on the overrun
re-evaluation loop (`while let SchedulerAction::Skip ...`): `none` means the
fuel ran out before the loop exited; `some` results are exactly the results
of the unbounded Rust loop. -/
def skipLoop (s : Scheduler Token) (acc : List Token) :
    Nat → Option (List Token × Scheduler Token)
  | 0 => Option.none
  | fuel + 1 =>
    match s.next_action with
    | SchedulerAction.Skip time_points =>
      let (tokens, s') := s.consume time_points
      skipLoop s' (acc ++ tokens) fuel
    | _ => Option.some (acc, s)

/-- Rust `Scheduler::next` (fuelled, see `skipLoop`). -/
def nextFuel (fuel : Nat) (s : Scheduler Token) :
    Option (Option (Schedule Token) × Scheduler Token) :=
  match s.next_action with
  | SchedulerAction.None => Option.some (Option.none, s)
  | SchedulerAction.Wait duration => Option.some (Option.some (Schedule.NextIn duration), s)
  | SchedulerAction.Skip _ =>
    (skipLoop s [] fuel).map (fun r => (Option.some (Schedule.Overrun r.1), r.2))
  | SchedulerAction.Yield time_point =>
    let (tokens, s') := s.consume [time_point]
    Option.some (Option.some (Schedule.Current tokens), s')

/-- Rust `Scheduler::cancel`: retain non-matching tasks in every bucket,
collect the keys of buckets left empty, then remove those keys. -/
def cancel (s : Scheduler Token) (token : Token) [DecidableEq Token] : Scheduler Token :=
  let retained : TaskMap Token := s.tasks.map (fun kv => (kv.1, kv.2.filter (fun t => t.token ≠ token)))
  let empty_time_points := (retained.filter (fun kv => kv.2.isEmpty)).map (·.1)
  { s with tasks := empty_time_points.foldl (fun m tp => eraseKey tp m) retained }

/-- Rust `Scheduler::fast_forward` via the mock time source: advance the
virtual clock. -/
def fastForward (s : Scheduler Token) (duration : Int) : Scheduler Token :=
  { s with now := s.now + duration }

/-- Rust `Scheduler::with_time_source` with a fresh mock clock at zero. -/
def fresh (time_point_interval : Int) : Scheduler Token :=
  ⟨time_point_interval, [], 0⟩

/-- Rust `Scheduler::wait` (fuelled recursion): sleep-and-retry on `NextIn`
(the mock `wait` advances the clock by exactly the requested duration),
error on overrun or empty, succeed on a current bucket. -/
def waitFuel : Nat → Scheduler Token → Option (Except (WaitError Token) (List Token) × Scheduler Token)
  | 0, _ => Option.none
  | fuel + 1, s =>
    match nextFuel fuel s with
    | Option.none => Option.none
    | Option.some (Option.none, s') => Option.some (Except.error WaitError.Empty, s')
    | Option.some (Option.some (Schedule.NextIn d), s') => waitFuel fuel (s'.fastForward d)
    | Option.some (Option.some (Schedule.Overrun tokens), s') =>
      Option.some (Except.error (WaitError.Overrun tokens), s')
    | Option.some (Option.some (Schedule.Current tokens), s') =>
      Option.some (Except.ok tokens, s')

end Scheduler

open Scheduler

/-! ### Predicates, invariants and measures used by the verification -/

/-- Task-level membership: task `t` sits in the bucket keyed `k` of `m`. -/
def TaskIn {Token : Type} (k : TimePoint) (t : Task Token) (m : TaskMap Token) : Prop :=
  ∃ ts, (k, ts) ∈ m ∧ t ∈ ts

/-- Keys strictly ascending — the iteration order a `BTreeMap` guarantees. -/
def KeysSorted {Token : Type} (m : TaskMap Token) : Prop :=
  List.Pairwise (fun a b => a.1 < b.1) m

/-- Well-formedness of a scheduler state: positive bucket width,
non-negative clock, sorted keys, no empty bucket, every task stored under
the bucket of its due time, and non-negative task fields (the `assert`s of
`Task::new` and `to_time_point`). -/
structure WF {Token : Type} (s : Scheduler Token) : Prop where
  interval_pos : 0 < s.time_point_interval
  now_nonneg : 0 ≤ s.now
  sorted : KeysSorted s.tasks
  buckets_nonempty : ∀ kv ∈ s.tasks, kv.2 ≠ ([] : List (Task Token))
  keys_correct : ∀ kv ∈ s.tasks, ∀ t ∈ kv.2, kv.1 = s.to_time_point t.schedule
  intervals_nonneg : ∀ kv ∈ s.tasks, ∀ t ∈ kv.2, 0 ≤ t.interval
  offsets_nonneg : ∀ kv ∈ s.tasks, ∀ t ∈ kv.2, 0 ≤ t.run_offset

/-- Every Perpetual task in the state has a strictly positive interval. -/
def PerpetualPos {Token : Type} (s : Scheduler Token) : Prop :=
  ∀ kv ∈ s.tasks, ∀ t ∈ kv.2, t.bond = TaskBond.Perpetual → 0 < t.interval

/-- States reachable by finite sequences of the public operations, starting
from a fresh scheduler with a positive bucket width (durations handed to
the registration calls are non-negative, per the `assert` in `Task::new`;
the clock only moves forward). -/
inductive Reachable {Token : Type} [DecidableEq Token] : Scheduler Token → Prop where
  | fresh (w : Int) (hw : 0 < w) : Reachable (Scheduler.fresh w)
  | after (s : Scheduler Token) (d : Int) (tok : Token) (hd : 0 ≤ d) :
      Reachable s → Reachable (s.after d tok)
  | every (s : Scheduler Token) (d : Int) (tok : Token) (hd : 0 ≤ d) :
      Reachable s → Reachable (s.every d tok)
  | next (s : Scheduler Token) (fuel : Nat) (r : Option (Schedule Token)) (s' : Scheduler Token) :
      Reachable s → Scheduler.nextFuel fuel s = Option.some (r, s') → Reachable s'
  | cancel (s : Scheduler Token) (tok : Token) : Reachable s → Reachable (s.cancel tok)
  | fastForward (s : Scheduler Token) (d : Int) (hd : 0 ≤ d) :
      Reachable s → Reachable (s.fastForward d)

/-- The fuelled poll diverges: no fuel bound makes it finish. -/
def NextDiverges {Token : Type} (s : Scheduler Token) : Prop :=
  ∀ fuel, Scheduler.nextFuel fuel s = Option.none

/-- The tokens a poll outcome fires (none for a pure wait report). -/
def firedTokens {Token : Type} : Schedule Token → Option (List Token)
  | Schedule.NextIn _ => Option.none
  | Schedule.Overrun tokens => Option.some tokens
  | Schedule.Current tokens => Option.some tokens

/-- Modelled from the spec (§4.7): the outcome mapping `wait` must apply to
one poll result — fail with `Empty` when the scheduler reports nothing,
fail with the missed tokens on an overrun, return the tokens of a due-now
bucket, and on `NextIn d` sleep exactly `d` (the mock clock advances by
`d`) and retry. -/
def specWaitStep {Token : Type}
    (poll : Option (Option (Schedule Token) × Scheduler Token))
    (retry : Scheduler Token → Option (Except (WaitError Token) (List Token) × Scheduler Token)) :
    Option (Except (WaitError Token) (List Token) × Scheduler Token) :=
  match poll with
  | Option.none => Option.none
  | Option.some (Option.none, s') => Option.some (Except.error WaitError.Empty, s')
  | Option.some (Option.some (Schedule.NextIn d), s') => retry (s'.fastForward d)
  | Option.some (Option.some (Schedule.Overrun tokens), s') =>
    Option.some (Except.error (WaitError.Overrun tokens), s')
  | Option.some (Option.some (Schedule.Current tokens), s') =>
    Option.some (Except.ok tokens, s')

/-- Termination measure, per task: how far (in nanoseconds) its due time
lies below the lower edge `cw` of the current bucket. -/
def taskCost {Token : Type} (cw : Int) (t : Task Token) : Nat :=
  (cw - t.schedule).toNat

/-- Termination measure, per bucket: the summed task costs of a bucket
strictly below the current bucket `c`; buckets at or past `c` cost zero. -/
def bucketCost {Token : Type} (c : TimePoint) (cw : Int) (kv : TimePoint × List (Task Token)) : Nat :=
  if kv.1 < c then (kv.2.map (taskCost cw)).sum else 0

/-- Termination measure of a bucket map. -/
def mapMeasure {Token : Type} (c : TimePoint) (cw : Int) (m : TaskMap Token) : Nat :=
  (m.map (bucketCost c cw)).sum

/-- Termination measure of a scheduler state at its own clock reading. -/
def stateMeasure {Token : Type} (s : Scheduler Token) : Nat :=
  mapMeasure (s.to_time_point s.now) (s.to_duration (s.to_time_point s.now)) s.tasks

/-! ### Concrete states used by counterexamples and witnesses -/

/-- The C1 counterexample state: bucket width 1000ns; `after(10000, 0)` at
clock 0 (due 10000, bucket 10), then `after(1000, 1)` at clock 5000
(due 6000, bucket 6), then clock advanced to 20000 (current bucket 20). -/
def c1_start : Scheduler Nat :=
  ((((Scheduler.fresh 1000).after 10000 0).fastForward 5000).after 1000 1).fastForward 15000

/-- The C2 counterexample state: `every(0, 7)` (a zero-interval perpetual
task, which `Task::new`'s `interval >= 0` assertion admits) with the clock
then advanced past its bucket. -/
def c2_start : Scheduler Nat := ((Scheduler.fresh 2).every 0 7).fastForward 4

/-- A small overdue state with a positive-interval perpetual task, used as
the C2 witness. -/
def c2_wit_state : Scheduler Nat := ((Scheduler.fresh 2).every 1 3).fastForward 8

/-- A small state used as the C3 witness: one perpetual task in bucket 0. -/
def c3_state : Scheduler Nat := (Scheduler.fresh 2).every 0 9

/-- The C4 scenario: bucket width 1s (`10^9` ns), `every(1s, 1)` registered
at clock 0, clock advanced by 4s before the first poll. -/
def c4_start : Scheduler Nat :=
  ((Scheduler.fresh (10 ^ 9)).every (10 ^ 9) 1).fastForward (4 * 10 ^ 9)

/-- The C6 witness state: bucket width 2, `after(3, 5)` at clock 0 — the
task sits in bucket 1, the current bucket is 0. -/
def c6_state : Scheduler Nat := (Scheduler.fresh 2).after 3 5

/-- The C7 witness state: two registrations, one cancellation. -/
def c7_state : Scheduler Nat := (((Scheduler.fresh 2).after 0 1).after 5 2).cancel 2

/-- The C8 witness state: one task due now. -/
def c8_state : Scheduler Nat := (Scheduler.fresh 2).after 0 4

/-- The C9 witness state: three tasks in the same bucket, tokens 1, 2, 3. -/
def c9_state : Scheduler Nat := (((Scheduler.fresh 2).after 0 1).after 0 2).after 0 3

/-- The C10 witness state: one task due now. -/
def c10_state : Scheduler Nat := (Scheduler.fresh 2).after 0 6

/-! ### Bucket-map lemmas (lookup, erase, insert on the sorted assoc list) -/

theorem lookupTasks_sound {Token : Type} {k : TimePoint} {t : Task Token} :
    ∀ {m : TaskMap Token}, t ∈ lookupTasks k m → TaskIn k t m := by
  intro m
  induction m with
  | nil => intro h; simp [lookupTasks] at h
  | cons kv rest ih =>
    obtain ⟨k', ts⟩ := kv
    simp only [lookupTasks]
    by_cases hk : k' = k
    · rw [if_pos hk]
      intro ht
      exact ⟨ts, by rw [← hk]; exact List.mem_cons_self _ _, ht⟩
    · rw [if_neg hk]
      intro ht
      rcases ih ht with ⟨ts0, hmem, ht0⟩
      exact ⟨ts0, List.mem_cons_of_mem _ hmem, ht0⟩

theorem lookupTasks_eq_of_mem {Token : Type} {k : TimePoint} {ts : List (Task Token)} :
    ∀ {m : TaskMap Token}, KeysSorted m → (k, ts) ∈ m → lookupTasks k m = ts := by
  intro m
  induction m with
  | nil => intro _ h; simp at h
  | cons kv rest ih =>
    obtain ⟨k', ts'⟩ := kv
    intro hs hmem
    rcases List.pairwise_cons.mp hs with ⟨hhead, htail⟩
    rcases List.mem_cons.mp hmem with heq | hmem'
    · obtain ⟨hk, hts⟩ := Prod.mk.injEq .. ▸ heq
      simp [lookupTasks, hk.symm, hts.symm]
    · have hlt : k' < k := hhead (k, ts) hmem'
      simp [lookupTasks, ne_of_lt hlt, ih htail hmem']

theorem mem_key_unique {Token : Type} {k : TimePoint} {a b : List (Task Token)}
    {m : TaskMap Token} (hs : KeysSorted m) (ha : (k, a) ∈ m) (hb : (k, b) ∈ m) : a = b := by
  have h1 := lookupTasks_eq_of_mem hs ha
  have h2 := lookupTasks_eq_of_mem hs hb
  rw [h1] at h2
  exact h2

theorem eraseKey_sublist {Token : Type} (k : TimePoint) :
    ∀ (m : TaskMap Token), (eraseKey k m).Sublist m := by
  intro m
  induction m with
  | nil => simp [eraseKey]
  | cons kv rest ih =>
    obtain ⟨k', ts⟩ := kv
    by_cases hk : k' = k
    · rw [eraseKey, if_pos hk]
      exact (List.Sublist.refl rest).cons (k', ts)
    · simpa [eraseKey, hk] using ih.cons₂ (k', ts)

theorem keysSorted_eraseKey {Token : Type} {k : TimePoint} {m : TaskMap Token}
    (hs : KeysSorted m) : KeysSorted (eraseKey k m) :=
  List.Pairwise.sublist (eraseKey_sublist k m) hs

theorem mem_eraseKey {Token : Type} {k : TimePoint} {kv : TimePoint × List (Task Token)} :
    ∀ {m : TaskMap Token}, KeysSorted m → (kv ∈ eraseKey k m ↔ kv ∈ m ∧ kv.1 ≠ k) := by
  intro m
  induction m with
  | nil => intro _; simp [eraseKey]
  | cons hd rest ih =>
    obtain ⟨k', ts⟩ := hd
    intro hs
    rcases List.pairwise_cons.mp hs with ⟨hhead, htail⟩
    by_cases hk : k' = k
    · subst hk
      simp only [eraseKey, if_pos rfl]
      constructor
      · intro h
        exact ⟨List.mem_cons_of_mem _ h, ne_of_gt (hhead kv h)⟩
      · rintro ⟨hmem, hne⟩
        rcases List.mem_cons.mp hmem with rfl | h
        · exact absurd rfl hne
        · exact h
    · simp only [eraseKey, if_neg hk]
      constructor
      · intro h
        rcases List.mem_cons.mp h with rfl | h'
        · exact ⟨List.mem_cons_self _ _, hk⟩
        · rcases (ih htail).mp h' with ⟨hmem, hne⟩
          exact ⟨List.mem_cons_of_mem _ hmem, hne⟩
      · rintro ⟨hmem, hne⟩
        rcases List.mem_cons.mp hmem with rfl | h'
        · exact List.mem_cons_self _ _
        · exact List.mem_cons_of_mem _ ((ih htail).mpr ⟨h', hne⟩)

theorem foldl_eraseKey_sublist {Token : Type} :
    ∀ (tps : List TimePoint) (m : TaskMap Token),
      (List.foldl (fun acc tp => eraseKey tp acc) m tps).Sublist m := by
  intro tps
  induction tps with
  | nil => intro m; exact List.Sublist.refl m
  | cons tp tps ih =>
    intro m
    exact (ih (eraseKey tp m)).trans (eraseKey_sublist tp m)

theorem keysSorted_foldl_eraseKey {Token : Type} {tps : List TimePoint} {m : TaskMap Token}
    (hs : KeysSorted m) : KeysSorted (List.foldl (fun acc tp => eraseKey tp acc) m tps) :=
  List.Pairwise.sublist (foldl_eraseKey_sublist tps m) hs

theorem mem_foldl_eraseKey {Token : Type} {kv : TimePoint × List (Task Token)} :
    ∀ (tps : List TimePoint) {m : TaskMap Token}, KeysSorted m →
      (kv ∈ List.foldl (fun acc tp => eraseKey tp acc) m tps ↔ kv ∈ m ∧ kv.1 ∉ tps) := by
  intro tps
  induction tps with
  | nil => intro m _; simp
  | cons tp tps ih =>
    intro m hs
    simp only [List.foldl_cons]
    rw [ih (keysSorted_eraseKey hs), mem_eraseKey hs, List.mem_cons]
    tauto

theorem mem_insertTask_elim {Token : Type} {k : TimePoint} {t : Task Token}
    {kv : TimePoint × List (Task Token)} :
    ∀ {m : TaskMap Token}, kv ∈ insertTask k t m →
      kv ∈ m ∨ kv = (k, [t]) ∨ ∃ ts, (k, ts) ∈ m ∧ kv = (k, ts ++ [t]) := by
  intro m
  induction m with
  | nil =>
    intro h
    simp only [insertTask, List.mem_singleton] at h
    exact Or.inr (Or.inl h)
  | cons hd rest ih =>
    obtain ⟨k', ts'⟩ := hd
    intro h
    simp only [insertTask] at h
    by_cases h1 : k < k'
    · rw [if_pos h1] at h
      rcases List.mem_cons.mp h with rfl | h2
      · exact Or.inr (Or.inl rfl)
      · exact Or.inl h2
    · rw [if_neg h1] at h
      by_cases h2 : k = k'
      · rw [if_pos h2] at h
        rcases List.mem_cons.mp h with rfl | h3
        · subst h2
          exact Or.inr (Or.inr ⟨ts', List.mem_cons_self _ _, rfl⟩)
        · exact Or.inl (List.mem_cons_of_mem _ h3)
      · rw [if_neg h2] at h
        rcases List.mem_cons.mp h with rfl | h3
        · exact Or.inl (List.mem_cons_self _ _)
        · rcases ih h3 with hm | hk | ⟨ts0, hts0, hkv⟩
          · exact Or.inl (List.mem_cons_of_mem _ hm)
          · exact Or.inr (Or.inl hk)
          · exact Or.inr (Or.inr ⟨ts0, List.mem_cons_of_mem _ hts0, hkv⟩)

theorem taskIn_insertTask_self {Token : Type} (k : TimePoint) (t : Task Token) :
    ∀ (m : TaskMap Token), TaskIn k t (insertTask k t m) := by
  intro m
  induction m with
  | nil => exact ⟨[t], by simp [insertTask], by simp⟩
  | cons hd rest ih =>
    obtain ⟨k', ts'⟩ := hd
    simp only [insertTask]
    by_cases h1 : k < k'
    · rw [if_pos h1]
      exact ⟨[t], List.mem_cons_self _ _, by simp⟩
    · rw [if_neg h1]
      by_cases h2 : k = k'
      · rw [if_pos h2]
        subst h2
        exact ⟨ts' ++ [t], List.mem_cons_self _ _, List.mem_append_right _ (by simp)⟩
      · rw [if_neg h2]
        rcases ih with ⟨ts0, h0, ht0⟩
        exact ⟨ts0, List.mem_cons_of_mem _ h0, ht0⟩

theorem taskIn_insertTask_mono {Token : Type} {k' : TimePoint} {t' : Task Token}
    (k : TimePoint) (t : Task Token) :
    ∀ {m : TaskMap Token}, TaskIn k' t' m → TaskIn k' t' (insertTask k t m) := by
  intro m
  induction m with
  | nil => rintro ⟨ts, h, -⟩; simp at h
  | cons hd rest ih =>
    obtain ⟨k0, ts0⟩ := hd
    rintro ⟨ts, hmem, ht⟩
    simp only [insertTask]
    by_cases h1 : k < k0
    · rw [if_pos h1]
      exact ⟨ts, List.mem_cons_of_mem _ hmem, ht⟩
    · rw [if_neg h1]
      by_cases h2 : k = k0
      · rw [if_pos h2]
        rcases List.mem_cons.mp hmem with heq | hmem'
        · obtain ⟨hk, hts⟩ := Prod.mk.injEq .. ▸ heq
          subst hk
          exact ⟨ts0 ++ [t], List.mem_cons_self _ _, List.mem_append_left _ (hts ▸ ht)⟩
        · exact ⟨ts, List.mem_cons_of_mem _ hmem', ht⟩
      · rw [if_neg h2]
        rcases List.mem_cons.mp hmem with heq | hmem'
        · exact ⟨ts, by rw [heq]; exact List.mem_cons_self _ _, ht⟩
        · rcases ih ⟨ts, hmem', ht⟩ with ⟨ts1, h1', ht1⟩
          exact ⟨ts1, List.mem_cons_of_mem _ h1', ht1⟩

theorem taskIn_insertTask_elim {Token : Type} {k' k : TimePoint} {t' t : Task Token}
    {m : TaskMap Token} (h : TaskIn k' t' (insertTask k t m)) :
    TaskIn k' t' m ∨ (k' = k ∧ t' = t) := by
  rcases h with ⟨ts1, hmem, ht1⟩
  rcases mem_insertTask_elim hmem with hm | heq | ⟨ts0, h0, heq⟩
  · exact Or.inl ⟨ts1, hm, ht1⟩
  · obtain ⟨hk, hts⟩ := Prod.mk.injEq .. ▸ heq
    subst hts
    rcases List.mem_singleton.mp ht1 with rfl
    exact Or.inr ⟨hk, rfl⟩
  · obtain ⟨hk, hts⟩ := Prod.mk.injEq .. ▸ heq
    subst hk hts
    rcases List.mem_append.mp ht1 with h' | h'
    · exact Or.inl ⟨ts0, h0, h'⟩
    · rcases List.mem_singleton.mp h' with rfl
      exact Or.inr ⟨rfl, rfl⟩

theorem keysSorted_insertTask {Token : Type} (k : TimePoint) (t : Task Token) :
    ∀ {m : TaskMap Token}, KeysSorted m → KeysSorted (insertTask k t m) := by
  intro m
  induction m with
  | nil => intro _; simp [insertTask, KeysSorted]
  | cons hd rest ih =>
    obtain ⟨k0, ts0⟩ := hd
    intro hs
    rcases List.pairwise_cons.mp hs with ⟨hhead, htail⟩
    simp only [insertTask]
    by_cases h1 : k < k0
    · rw [if_pos h1]
      refine List.pairwise_cons.mpr ⟨?_, hs⟩
      intro x hx
      rcases List.mem_cons.mp hx with rfl | hx'
      · exact h1
      · exact h1.trans (hhead x hx')
    · rw [if_neg h1]
      by_cases h2 : k = k0
      · rw [if_pos h2]
        exact List.pairwise_cons.mpr ⟨hhead, htail⟩
      · rw [if_neg h2]
        refine List.pairwise_cons.mpr ⟨?_, ih htail⟩
        intro x hx
        have hk0 : k0 < k := lt_of_le_of_ne (le_of_not_lt h1) fun e => h2 e.symm
        rcases mem_insertTask_elim hx with hm | rfl | ⟨ts', -, rfl⟩
        · exact hhead x hm
        · exact hk0
        · exact hk0

/-! ### Lemmas about the rescheduling fold of `consume` -/

theorem reinsert_fields {Token : Type} (st : Scheduler Token) (t : Task Token) :
    (Scheduler.reinsert st t).time_point_interval = st.time_point_interval ∧
    (Scheduler.reinsert st t).now = st.now := by
  unfold Scheduler.reinsert
  cases t.bond <;> exact ⟨rfl, rfl⟩

theorem foldl_reinsert_fields {Token : Type} :
    ∀ (l : List (Task Token)) (st : Scheduler Token),
      (List.foldl Scheduler.reinsert st l).time_point_interval = st.time_point_interval ∧
      (List.foldl Scheduler.reinsert st l).now = st.now := by
  intro l
  induction l with
  | nil => intro st; exact ⟨rfl, rfl⟩
  | cons t ts ih =>
    intro st
    have h := ih (Scheduler.reinsert st t)
    have h' := reinsert_fields st t
    exact ⟨h.1.trans h'.1, h.2.trans h'.2⟩

theorem to_time_point_congr {Token : Type} {s1 s2 : Scheduler Token}
    (h : s1.time_point_interval = s2.time_point_interval) (d : Int) :
    s1.to_time_point d = s2.to_time_point d := by
  simp [Scheduler.to_time_point, h]

theorem taskIn_foldl_reinsert_mono {Token : Type} {k' : TimePoint} {t' : Task Token} :
    ∀ (l : List (Task Token)) (st : Scheduler Token),
      TaskIn k' t' st.tasks → TaskIn k' t' (List.foldl Scheduler.reinsert st l).tasks := by
  intro l
  induction l with
  | nil => intro st h; exact h
  | cons t ts ih =>
    intro st h
    refine ih (Scheduler.reinsert st t) ?_
    unfold Scheduler.reinsert
    cases t.bond
    · exact h
    · exact taskIn_insertTask_mono _ _ h

theorem taskIn_foldl_reinsert_of_mem {Token : Type} :
    ∀ (l : List (Task Token)) (st : Scheduler Token) (t : Task Token),
      t ∈ l → t.bond = TaskBond.Perpetual →
      TaskIn (st.to_time_point t.next.schedule) t.next (List.foldl Scheduler.reinsert st l).tasks := by
  intro l
  induction l with
  | nil => intro st t h; simp at h
  | cons t0 ts ih =>
    intro st t hmem hbond
    rcases List.mem_cons.mp hmem with rfl | hmem'
    · have hre : Scheduler.reinsert st t = st.scheduleTask t.next := by
        unfold Scheduler.reinsert; rw [hbond]
      have hself : TaskIn (st.to_time_point t.next.schedule) t.next (st.scheduleTask t.next).tasks :=
        taskIn_insertTask_self _ _ _
      simpa [List.foldl_cons, hre] using
        taskIn_foldl_reinsert_mono ts (st.scheduleTask t.next) hself
    · have h := ih (Scheduler.reinsert st t0) t hmem' hbond
      rwa [to_time_point_congr (reinsert_fields st t0).1] at h

theorem taskIn_foldl_reinsert_elim {Token : Type} {k' : TimePoint} {t' : Task Token} :
    ∀ (l : List (Task Token)) (st : Scheduler Token),
      TaskIn k' t' (List.foldl Scheduler.reinsert st l).tasks →
      TaskIn k' t' st.tasks ∨
        ∃ t ∈ l, t.bond = TaskBond.Perpetual ∧ t' = t.next ∧
          k' = st.to_time_point t.next.schedule := by
  intro l
  induction l with
  | nil => intro st h; exact Or.inl h
  | cons t0 ts ih =>
    intro st h
    rcases ih (Scheduler.reinsert st t0) h with h' | ⟨t, hmem, hbond, ht', hk'⟩
    · cases hb : t0.bond with
      | OneOff =>
        left
        have : Scheduler.reinsert st t0 = st := by unfold Scheduler.reinsert; rw [hb]
        rwa [this] at h'
      | Perpetual =>
        have : Scheduler.reinsert st t0 = st.scheduleTask t0.next := by
          unfold Scheduler.reinsert; rw [hb]
        rw [this] at h'
        rcases taskIn_insertTask_elim h' with hm | ⟨hk, ht⟩
        · exact Or.inl hm
        · exact Or.inr ⟨t0, List.mem_cons_self _ _, hb, ht, hk⟩
    · refine Or.inr ⟨t, List.mem_cons_of_mem _ hmem, hbond, ht', ?_⟩
      rwa [to_time_point_congr (reinsert_fields st t0).1] at hk'

/-! ### Sorting lemmas for `sortRO` (the `sort_by run_offset` of `consume`) -/

theorem insertRO_perm {Token : Type} (t : Task Token) (l : List (Task Token)) :
    (insertRO t l).Perm (t :: l) := by
  induction l with
  | nil => simp [insertRO]
  | cons u us ih =>
    by_cases h : u.run_offset < t.run_offset
    · simpa [insertRO, h] using ((ih.cons u).trans (List.Perm.swap t u us))
    · simp [insertRO, h]

theorem sortRO_perm {Token : Type} (l : List (Task Token)) : (sortRO l).Perm l := by
  induction l with
  | nil => simp [sortRO]
  | cons t ts ih => exact (insertRO_perm t (sortRO ts)).trans (ih.cons t)

theorem insertRO_pairwise {Token : Type} (t : Task Token) (l : List (Task Token))
    (h : List.Pairwise (fun a b => a.run_offset ≤ b.run_offset) l) :
    List.Pairwise (fun a b => a.run_offset ≤ b.run_offset) (insertRO t l) := by
  induction l with
  | nil => simp [insertRO]
  | cons u us ih =>
    rcases List.pairwise_cons.mp h with ⟨hu, hus⟩
    by_cases hc : u.run_offset < t.run_offset
    · simp only [insertRO, if_pos hc]
      refine List.pairwise_cons.mpr ⟨?_, ih hus⟩
      intro x hx
      rcases List.mem_cons.mp ((insertRO_perm t us).mem_iff.mp hx) with hx | hx
      · subst hx; exact le_of_lt hc
      · exact hu x hx
    · simp only [insertRO, if_neg hc]
      refine List.pairwise_cons.mpr ⟨?_, h⟩
      intro x hx
      rcases List.mem_cons.mp hx with hx | hx
      · subst hx; exact le_of_not_lt hc
      · exact le_trans (le_of_not_lt hc) (hu x hx)

theorem sortRO_sorted {Token : Type} (l : List (Task Token)) :
    List.Pairwise (fun a b => a.run_offset ≤ b.run_offset) (sortRO l) := by
  induction l with
  | nil => simp [sortRO]
  | cons t ts ih => exact insertRO_pairwise t (sortRO ts) ih

/-! ### Unfolding equations and task-membership lemmas for `consume` -/

theorem consume_snd_eq {Token : Type} (s : Scheduler Token) (tps : List TimePoint) :
    (s.consume tps).2 = List.foldl Scheduler.reinsert
      { s with tasks := List.foldl (fun m tp => eraseKey tp m) s.tasks tps }
      (sortRO ((tps.map (fun tp => lookupTasks tp s.tasks)).flatten)) := rfl

theorem consume_fst_eq {Token : Type} (s : Scheduler Token) (tps : List TimePoint) :
    (s.consume tps).1 =
      (sortRO ((tps.map (fun tp => lookupTasks tp s.tasks)).flatten)).map Task.token := rfl

theorem consume_fields {Token : Type} (s : Scheduler Token) (tps : List TimePoint) :
    (s.consume tps).2.time_point_interval = s.time_point_interval ∧
    (s.consume tps).2.now = s.now := by
  rw [consume_snd_eq]
  exact foldl_reinsert_fields _ _

theorem consume_taskIn_elim {Token : Type} {k' : TimePoint} {t' : Task Token}
    (s : Scheduler Token) (tps : List TimePoint) (hs : KeysSorted s.tasks)
    (h : TaskIn k' t' (s.consume tps).2.tasks) :
    (k' ∉ tps ∧ TaskIn k' t' s.tasks) ∨
    (∃ k, k ∈ tps ∧ ∃ t, TaskIn k t s.tasks ∧ t.bond = TaskBond.Perpetual ∧
      t' = t.next ∧ k' = s.to_time_point t.next.schedule) := by
  rw [consume_snd_eq] at h
  rcases taskIn_foldl_reinsert_elim _ _ h with h' | ⟨t, hmem, hbond, ht', hk'⟩
  · rcases h' with ⟨ts1, hmem1, ht1⟩
    rcases (mem_foldl_eraseKey tps hs).mp hmem1 with ⟨hm, hnot⟩
    exact Or.inl ⟨hnot, ts1, hm, ht1⟩
  · have hcol : t ∈ (tps.map (fun tp => lookupTasks tp s.tasks)).flatten :=
      (sortRO_perm _).mem_iff.mp hmem
    rcases List.mem_flatten.mp hcol with ⟨l, hl, htl⟩
    rcases List.mem_map.mp hl with ⟨tp, htp, rfl⟩
    exact Or.inr ⟨tp, htp, t, lookupTasks_sound htl, hbond, ht', hk'⟩

theorem consume_taskIn_perpetual {Token : Type} {k : TimePoint} {t : Task Token}
    (s : Scheduler Token) (tps : List TimePoint) (hs : KeysSorted s.tasks)
    (hk : k ∈ tps) (ht : TaskIn k t s.tasks) (hb : t.bond = TaskBond.Perpetual) :
    TaskIn (s.to_time_point t.next.schedule) t.next (s.consume tps).2.tasks := by
  rw [consume_snd_eq]
  rcases ht with ⟨ts, hmem, htin⟩
  have hlk : t ∈ lookupTasks k s.tasks := by
    rw [lookupTasks_eq_of_mem hs hmem]; exact htin
  have hcol : t ∈ (tps.map (fun tp => lookupTasks tp s.tasks)).flatten :=
    List.mem_flatten.mpr ⟨lookupTasks k s.tasks, List.mem_map.mpr ⟨k, hk, rfl⟩, hlk⟩
  have hsort : t ∈ sortRO ((tps.map (fun tp => lookupTasks tp s.tasks)).flatten) :=
    (sortRO_perm _).mem_iff.mpr hcol
  exact taskIn_foldl_reinsert_of_mem _ _ t hsort hb

/-! ### C1 -/

/-- C1 is false as stated: a single poll drains the two overdue buckets 6
and 10 in one consume step, yet reports token 0 (the bucket-10 task, armed
at 0) before token 1 (the bucket-6 task, armed at 5000), because `consume`
sorts the flattened tasks by `run_offset` alone, ignoring bucket keys. -/
theorem consume_cross_bucket_order_counterexample :
    c1_start.tasks =
      [(6, [⟨1000, 5000, 1, TaskBond.OneOff⟩]), (10, [⟨10000, 0, 0, TaskBond.OneOff⟩])] ∧
    c1_start.next_action = SchedulerAction.Skip [6, 10] ∧
    nextFuel 2 c1_start = Option.some (Option.some (Schedule.Overrun [0, 1]), ⟨1000, [], 20000⟩) :=
  ⟨rfl, rfl, rfl⟩

/-- C1 (amended): within one consume step the reported tokens are those of
all tasks of the drained buckets, reordered into ascending `armed_at`
(`run_offset`) order; ascending bucket key is NOT respected when arm times
disagree across buckets. -/
theorem consume_firing_order {Token : Type} (s : Scheduler Token) (tps : List TimePoint) :
    ∃ fired : List (Task Token),
      fired.Perm ((tps.map (fun tp => lookupTasks tp s.tasks)).flatten) ∧
      List.Pairwise (fun a b => a.run_offset ≤ b.run_offset) fired ∧
      (s.consume tps).1 = fired.map Task.token :=
  ⟨sortRO _, sortRO_perm _, sortRO_sorted _, rfl⟩

/-! ### C4 -/

/-- C4: the first poll reports `Overrun [1, 1, 1]` (three missed ticks) and
the immediately following poll reports `Current [1]`; the intermediate
states show the perpetual task advancing by its interval, never by `now`. -/
theorem overrun_example_behavior :
    nextFuel 4 c4_start =
      Option.some (Option.some (Schedule.Overrun [1, 1, 1]),
        ⟨10 ^ 9, [(4, [⟨10 ^ 9, 3 * 10 ^ 9, 1, TaskBond.Perpetual⟩])], 4 * 10 ^ 9⟩) ∧
    nextFuel 4 (⟨10 ^ 9, [(4, [⟨10 ^ 9, 3 * 10 ^ 9, 1, TaskBond.Perpetual⟩])], 4 * 10 ^ 9⟩ : Scheduler Nat) =
      Option.some (Option.some (Schedule.Current [1]),
        ⟨10 ^ 9, [(5, [⟨10 ^ 9, 4 * 10 ^ 9, 1, TaskBond.Perpetual⟩])], 4 * 10 ^ 9⟩) :=
  ⟨rfl, rfl⟩

/-! ### C5 -/

/-- C5: quantization is a floor: for `0 ≤ d` and a positive bucket width,
`to_duration (to_time_point d) ≤ d < to_duration (to_time_point d + 1)`. -/
theorem to_time_point_floor_inverse {Token : Type} (s : Scheduler Token) (d : Int)
    (hd : 0 ≤ d) (hw : 0 < s.time_point_interval) :
    s.to_duration (s.to_time_point d) ≤ d ∧ d < s.to_duration (s.to_time_point d + 1) := by
  set w := s.time_point_interval with hwdef
  have hcast : ((d / w).toNat : Int) = d / w :=
    Int.toNat_of_nonneg (Int.ediv_nonneg hd hw.le)
  have hdm := Int.ediv_add_emod d w
  have hm0 : 0 ≤ d % w := Int.emod_nonneg d hw.ne'
  have hmw : d % w < w := Int.emod_lt_of_pos d hw
  constructor
  · show w * ((d / w).toNat : Int) ≤ d
    rw [hcast]
    linarith
  · show d < w * (((d / w).toNat + 1 : Nat) : Int)
    push_cast [hcast]
    linarith

/-- Witness for C5 at `d = 5`, bucket width `2`: buckets edge `4 ≤ 5 < 6`. -/
theorem to_time_point_floor_inverse_witness :
    (0 : Int) ≤ 5 ∧ 0 < (Scheduler.fresh 2 : Scheduler Nat).time_point_interval ∧
    ((Scheduler.fresh 2 : Scheduler Nat).to_duration ((Scheduler.fresh 2 : Scheduler Nat).to_time_point 5) ≤ 5 ∧
      (5 : Int) < (Scheduler.fresh 2 : Scheduler Nat).to_duration ((Scheduler.fresh 2 : Scheduler Nat).to_time_point 5 + 1)) :=
  ⟨by decide, by decide, to_time_point_floor_inverse (Scheduler.fresh 2) 5 (by decide) (by decide)⟩

/-! ### C6 -/

/-- C6: when the earliest populated bucket key is strictly above the current
bucket, a poll returns `NextIn (to_duration key - now)` with a strictly
positive duration, and the state is returned unchanged — so repeated polls
with an unchanged clock give the same answer. -/
theorem next_wait_idempotent {Token : Type} (s : Scheduler Token) (fuel : Nat)
    (k : TimePoint) (ts : List (Task Token)) (rest : TaskMap Token)
    (hw : 0 < s.time_point_interval) (hnow : 0 ≤ s.now)
    (hm : s.tasks = (k, ts) :: rest)
    (hgt : s.to_time_point s.now < k) :
    nextFuel fuel s = Option.some (Option.some (Schedule.NextIn (s.to_duration k - s.now)), s) ∧
    0 < s.to_duration k - s.now := by
  have hact : s.next_action = SchedulerAction.Wait (s.to_duration k - s.now) := by
    simp only [Scheduler.next_action, hm, if_pos hgt]
  refine ⟨?_, ?_⟩
  · simp [Scheduler.nextFuel, hact]
  · have hq : s.now / s.time_point_interval < (k : Int) := by
      have hcast : ((s.now / s.time_point_interval).toNat : Int) = s.now / s.time_point_interval :=
        Int.toNat_of_nonneg (Int.ediv_nonneg hnow hw.le)
      rw [← hcast]
      exact_mod_cast hgt
    have := (Int.ediv_lt_iff_lt_mul hw).mp hq
    show 0 < s.time_point_interval * (k : Int) - s.now
    linarith [this, mul_comm (k : Int) s.time_point_interval]

/-- Witness for C6: the poll reports `NextIn 2` and leaves the state be. -/
theorem next_wait_idempotent_witness :
    0 < c6_state.time_point_interval ∧ 0 ≤ c6_state.now ∧
    c6_state.tasks = [(1, [⟨3, 0, 5, TaskBond.OneOff⟩])] ∧
    c6_state.to_time_point c6_state.now < 1 ∧
    (nextFuel 7 c6_state =
        Option.some (Option.some (Schedule.NextIn (c6_state.to_duration 1 - c6_state.now)), c6_state) ∧
      0 < c6_state.to_duration 1 - c6_state.now) :=
  ⟨by decide, by decide, by decide, by decide,
    next_wait_idempotent c6_state 7 1 [⟨3, 0, 5, TaskBond.OneOff⟩] []
      (by decide) (by decide) (by decide) (by decide)⟩

/-! ### C3 -/

/-- C3: `Task::next` advances `armed_at` to the old due time keeping the
interval, token and bond; every Perpetual task in a consumed bucket is
re-inserted as exactly that advanced task, under the bucket of its new due
time; and every task of the post-consume state is either an untouched task
of a non-consumed bucket or such a rescheduled Perpetual — in particular a
consumed OneOff task is never re-inserted. -/
theorem consume_reschedule_spec {Token : Type} (s : Scheduler Token) (tps : List TimePoint)
    (hs : KeysSorted s.tasks) :
    (∀ t : Task Token, t.next.run_offset = t.schedule ∧ t.next.interval = t.interval ∧
      t.next.token = t.token ∧ t.next.bond = t.bond) ∧
    (∀ k t, k ∈ tps → TaskIn k t s.tasks → t.bond = TaskBond.Perpetual →
      TaskIn (s.to_time_point t.next.schedule) t.next (s.consume tps).2.tasks) ∧
    (∀ k' t', TaskIn k' t' (s.consume tps).2.tasks →
      (k' ∉ tps ∧ TaskIn k' t' s.tasks) ∨
      (∃ k, k ∈ tps ∧ ∃ t, TaskIn k t s.tasks ∧ t.bond = TaskBond.Perpetual ∧
        t' = t.next ∧ k' = s.to_time_point t.next.schedule)) :=
  ⟨fun _ => ⟨rfl, rfl, rfl, rfl⟩,
   fun _ _ hk ht hb => consume_taskIn_perpetual s tps hs hk ht hb,
   fun _ _ h => consume_taskIn_elim s tps hs h⟩

/-- Witness for C3 at a state with one zero-interval perpetual task. -/
theorem consume_reschedule_spec_witness :
    KeysSorted c3_state.tasks ∧
    ((∀ t : Task Nat, t.next.run_offset = t.schedule ∧ t.next.interval = t.interval ∧
        t.next.token = t.token ∧ t.next.bond = t.bond) ∧
      (∀ k t, k ∈ [0] → TaskIn k t c3_state.tasks → t.bond = TaskBond.Perpetual →
        TaskIn (c3_state.to_time_point t.next.schedule) t.next (c3_state.consume [0]).2.tasks) ∧
      (∀ k' t', TaskIn k' t' (c3_state.consume [0]).2.tasks →
        (k' ∉ [0] ∧ TaskIn k' t' c3_state.tasks) ∨
        (∃ k, k ∈ [0] ∧ ∃ t, TaskIn k t c3_state.tasks ∧ t.bond = TaskBond.Perpetual ∧
          t' = t.next ∧ k' = c3_state.to_time_point t.next.schedule))) :=
  ⟨List.pairwise_singleton _ _, consume_reschedule_spec c3_state [0] (List.pairwise_singleton _ _)⟩

/-! ### C8 -/

/-- C8: one step of the blocking `wait` loop is exactly the spec's outcome
mapping applied to one poll: `Overrun` fails with exactly the missed
tokens, `Current` succeeds with the tokens, an empty scheduler fails with
`Empty`, and `NextIn d` sleeps `d` and retries — `wait` adds no scheduling
decision of its own. -/
theorem wait_maps_poll_outcomes {Token : Type} (s : Scheduler Token) (fuel : Nat) :
    Scheduler.waitFuel (fuel + 1) s =
      specWaitStep (Scheduler.nextFuel fuel s) (Scheduler.waitFuel fuel) := by
  cases h : Scheduler.nextFuel fuel s with
  | none => simp [Scheduler.waitFuel, specWaitStep, h]
  | some r =>
    obtain ⟨ro, s'⟩ := r
    cases ro with
    | none => simp [Scheduler.waitFuel, specWaitStep, h]
    | some sched => cases sched <;> simp [Scheduler.waitFuel, specWaitStep, h]

/-! ### C9 -/

/-- C9: a bucket survives `cancel tok` exactly as the filter of a stored
bucket by `token ≠ tok` when that filter is non-empty: matching tasks are
removed across all buckets, non-matching tasks stay in their bucket in
their original relative order, and buckets filtered to empty are pruned. -/
theorem cancel_spec {Token : Type} [DecidableEq Token] (s : Scheduler Token) (tok : Token)
    (k : TimePoint) (ts' : List (Task Token)) (hs : KeysSorted s.tasks) :
    ((k, ts') ∈ (s.cancel tok).tasks ↔
      ∃ ts, (k, ts) ∈ s.tasks ∧ ts' = ts.filter (fun t => t.token ≠ tok) ∧ ts' ≠ []) := by
  have hsr : KeysSorted
      (s.tasks.map (fun kv => (kv.1, kv.2.filter (fun t => t.token ≠ tok)))) := by
    unfold KeysSorted at hs ⊢
    rw [List.pairwise_map]
    exact hs
  have hfold : (s.cancel tok).tasks =
      List.foldl (fun m tp => eraseKey tp m)
        (s.tasks.map (fun kv => (kv.1, kv.2.filter (fun t => t.token ≠ tok))))
        ((((s.tasks.map (fun kv => (kv.1, kv.2.filter (fun t => t.token ≠ tok)))).filter
            (fun kv => kv.2.isEmpty)).map (·.1))) := rfl
  rw [hfold, mem_foldl_eraseKey _ hsr]
  constructor
  · rintro ⟨hret, hnot⟩
    rcases List.mem_map.mp hret with ⟨⟨k0, ts0⟩, hmem0, heq0⟩
    obtain ⟨hk0, hts0⟩ := Prod.mk.injEq .. ▸ heq0
    refine ⟨ts0, hk0 ▸ hmem0, hts0.symm, ?_⟩
    intro hemp
    apply hnot
    refine List.mem_map.mpr ⟨(k, ts'), List.mem_filter.mpr ⟨hret, ?_⟩, rfl⟩
    rw [hemp]
    rfl
  · rintro ⟨ts, hmem, rfl, hne⟩
    have hret : (k, ts.filter (fun t => t.token ≠ tok)) ∈
        s.tasks.map (fun kv => (kv.1, kv.2.filter (fun t => t.token ≠ tok))) :=
      List.mem_map.mpr ⟨(k, ts), hmem, rfl⟩
    refine ⟨hret, ?_⟩
    intro hk
    rcases List.mem_map.mp hk with ⟨kv', hkv', hkeq⟩
    rcases List.mem_filter.mp hkv' with ⟨hkv'ret, hkv'emp⟩
    rcases List.mem_map.mp hkv'ret with ⟨⟨k1, ts1⟩, hmem1, heq1⟩
    have hk1 : k1 = k := by
      have := congrArg Prod.fst heq1
      simpa [hkeq] using this
    subst hk1
    have hts1 : ts1 = ts := mem_key_unique hs hmem1 hmem
    subst hts1
    have : (kv'.2 : List (Task Token)) = ts1.filter (fun t => t.token ≠ tok) :=
      (congrArg Prod.snd heq1).symm
    rw [List.isEmpty_iff] at hkv'emp
    exact hne (by rw [← this, hkv'emp])

/-- Witness for C9: three tasks with tokens 1, 2, 3 in bucket 0; after
`cancel 1` the bucket holds exactly the tasks with tokens 2 and 3. -/
theorem cancel_spec_witness :
    KeysSorted c9_state.tasks ∧
    ((0, [⟨0, 0, 2, TaskBond.OneOff⟩, ⟨0, 0, 3, TaskBond.OneOff⟩]) ∈ (c9_state.cancel 1).tasks ↔
      ∃ ts, (0, ts) ∈ c9_state.tasks ∧
        ([⟨0, 0, 2, TaskBond.OneOff⟩, ⟨0, 0, 3, TaskBond.OneOff⟩] : List (Task Nat)) =
          ts.filter (fun t => t.token ≠ 1) ∧
        ([⟨0, 0, 2, TaskBond.OneOff⟩, ⟨0, 0, 3, TaskBond.OneOff⟩] : List (Task Nat)) ≠ []) :=
  ⟨List.pairwise_singleton _ _,
    cancel_spec c9_state 1 0 [⟨0, 0, 2, TaskBond.OneOff⟩, ⟨0, 0, 3, TaskBond.OneOff⟩]
      (List.pairwise_singleton _ _)⟩

/-! ### Preservation of the well-formedness invariant -/

theorem WF_fresh {Token : Type} {w : Int} (hw : 0 < w) : WF (Scheduler.fresh w : Scheduler Token) := by
  refine ⟨hw, le_refl 0, List.Pairwise.nil, ?_, ?_, ?_, ?_⟩ <;>
    intro kv hkv <;> simp [Scheduler.fresh] at hkv

theorem WF_scheduleTask {Token : Type} {s : Scheduler Token} (h : WF s) {t : Task Token}
    (hi : 0 ≤ t.interval) (ho : 0 ≤ t.run_offset) : WF (s.scheduleTask t) := by
  refine ⟨h.interval_pos, h.now_nonneg, keysSorted_insertTask _ _ h.sorted, ?_, ?_, ?_, ?_⟩
  · intro kv hkv
    rcases mem_insertTask_elim hkv with hm | rfl | ⟨ts, -, rfl⟩
    · exact h.buckets_nonempty kv hm
    · simp
    · simp
  · intro kv hkv t0 ht0
    rcases mem_insertTask_elim hkv with hm | rfl | ⟨ts, hts, rfl⟩
    · exact h.keys_correct kv hm t0 ht0
    · rcases List.mem_singleton.mp ht0 with rfl
      rfl
    · rcases List.mem_append.mp ht0 with h' | h'
      · exact h.keys_correct (s.to_time_point t.schedule, ts) hts t0 h'
      · rcases List.mem_singleton.mp h' with rfl
        rfl
  · intro kv hkv t0 ht0
    rcases mem_insertTask_elim hkv with hm | rfl | ⟨ts, hts, rfl⟩
    · exact h.intervals_nonneg kv hm t0 ht0
    · rcases List.mem_singleton.mp ht0 with rfl
      exact hi
    · rcases List.mem_append.mp ht0 with h' | h'
      · exact h.intervals_nonneg (s.to_time_point t.schedule, ts) hts t0 h'
      · rcases List.mem_singleton.mp h' with rfl
        exact hi
  · intro kv hkv t0 ht0
    rcases mem_insertTask_elim hkv with hm | rfl | ⟨ts, hts, rfl⟩
    · exact h.offsets_nonneg kv hm t0 ht0
    · rcases List.mem_singleton.mp ht0 with rfl
      exact ho
    · rcases List.mem_append.mp ht0 with h' | h'
      · exact h.offsets_nonneg (s.to_time_point t.schedule, ts) hts t0 h'
      · rcases List.mem_singleton.mp h' with rfl
        exact ho

theorem WF_after {Token : Type} {s : Scheduler Token} (h : WF s) {d : Int} (hd : 0 ≤ d)
    (tok : Token) : WF (s.after d tok) :=
  WF_scheduleTask h hd h.now_nonneg

theorem WF_every {Token : Type} {s : Scheduler Token} (h : WF s) {d : Int} (hd : 0 ≤ d)
    (tok : Token) : WF (s.every d tok) :=
  WF_scheduleTask h hd h.now_nonneg

theorem WF_fastForward {Token : Type} {s : Scheduler Token} (h : WF s) {d : Int} (hd : 0 ≤ d) :
    WF (s.fastForward d) :=
  ⟨h.interval_pos, add_nonneg h.now_nonneg hd, h.sorted, h.buckets_nonempty,
    h.keys_correct, h.intervals_nonneg, h.offsets_nonneg⟩

theorem WF_cancel {Token : Type} [DecidableEq Token] {s : Scheduler Token} (h : WF s)
    (tok : Token) : WF (s.cancel tok) := by
  have hsorted := h.sorted
  have hsr : KeysSorted
      (s.tasks.map (fun kv => (kv.1, kv.2.filter (fun t => t.token ≠ tok)))) := by
    unfold KeysSorted at hsorted ⊢
    rw [List.pairwise_map]
    exact hsorted
  have hfold : (s.cancel tok).tasks =
      List.foldl (fun m tp => eraseKey tp m)
        (s.tasks.map (fun kv => (kv.1, kv.2.filter (fun t => t.token ≠ tok))))
        ((((s.tasks.map (fun kv => (kv.1, kv.2.filter (fun t => t.token ≠ tok)))).filter
            (fun kv => kv.2.isEmpty)).map (·.1))) := rfl
  have hmem : ∀ kv, kv ∈ (s.cancel tok).tasks →
      (kv ∈ s.tasks.map (fun kv => (kv.1, kv.2.filter (fun t => t.token ≠ tok))) ∧
        kv.1 ∉ (((s.tasks.map (fun kv => (kv.1, kv.2.filter (fun t => t.token ≠ tok)))).filter
            (fun kv => kv.2.isEmpty)).map (·.1))) := by
    intro kv hkv
    rw [hfold] at hkv
    exact (mem_foldl_eraseKey _ hsr).mp hkv
  have hsub : ∀ kv, kv ∈ (s.cancel tok).tasks → ∀ t0, t0 ∈ kv.2 →
      ∃ ts, (kv.1, ts) ∈ s.tasks ∧ t0 ∈ ts := by
    intro kv hkv t0 ht0
    rcases List.mem_map.mp (hmem kv hkv).1 with ⟨⟨k1, ts1⟩, hmem1, heq1⟩
    obtain ⟨hk1, hts1⟩ := Prod.mk.injEq .. ▸ heq1
    refine ⟨ts1, ?_, ?_⟩
    · rw [← hk1]; exact hmem1
    · have : t0 ∈ ts1.filter (fun t => t.token ≠ tok) := by rw [hts1]; exact ht0
      exact List.mem_of_mem_filter this
  refine ⟨h.interval_pos, h.now_nonneg, ?_, ?_, ?_, ?_, ?_⟩
  · rw [hfold]
    exact keysSorted_foldl_eraseKey hsr
  · intro kv hkv hemp
    apply (hmem kv hkv).2
    refine List.mem_map.mpr ⟨kv, List.mem_filter.mpr ⟨(hmem kv hkv).1, ?_⟩, rfl⟩
    rw [hemp]
    rfl
  · intro kv hkv t0 ht0
    rcases hsub kv hkv t0 ht0 with ⟨ts, hts, ht0'⟩
    exact h.keys_correct (kv.1, ts) hts t0 ht0'
  · intro kv hkv t0 ht0
    rcases hsub kv hkv t0 ht0 with ⟨ts, hts, ht0'⟩
    exact h.intervals_nonneg (kv.1, ts) hts t0 ht0'
  · intro kv hkv t0 ht0
    rcases hsub kv hkv t0 ht0 with ⟨ts, hts, ht0'⟩
    exact h.offsets_nonneg (kv.1, ts) hts t0 ht0'

theorem WF_foldl_reinsert {Token : Type} :
    ∀ (l : List (Task Token)) (st : Scheduler Token), WF st →
      (∀ t ∈ l, 0 ≤ t.interval ∧ 0 ≤ t.run_offset) →
      WF (List.foldl Scheduler.reinsert st l) := by
  intro l
  induction l with
  | nil => intro st h _; exact h
  | cons t0 ts ih =>
    intro st h hb
    refine ih (Scheduler.reinsert st t0) ?_ fun t ht => hb t (List.mem_cons_of_mem _ ht)
    have hb0 := hb t0 (List.mem_cons_self _ _)
    unfold Scheduler.reinsert
    cases t0.bond
    · exact h
    · exact WF_scheduleTask h hb0.1 (add_nonneg hb0.2 hb0.1)

theorem taskBounds_of_collected {Token : Type} {s : Scheduler Token} (h : WF s)
    {tps : List TimePoint} {t : Task Token}
    (ht : t ∈ sortRO ((tps.map (fun tp => lookupTasks tp s.tasks)).flatten)) :
    0 ≤ t.interval ∧ 0 ≤ t.run_offset := by
  have hcol : t ∈ (tps.map (fun tp => lookupTasks tp s.tasks)).flatten :=
    (sortRO_perm _).mem_iff.mp ht
  rcases List.mem_flatten.mp hcol with ⟨l, hl, htl⟩
  rcases List.mem_map.mp hl with ⟨tp, -, rfl⟩
  rcases lookupTasks_sound htl with ⟨ts, hmem, htin⟩
  exact ⟨h.intervals_nonneg (tp, ts) hmem t htin, h.offsets_nonneg (tp, ts) hmem t htin⟩

theorem WF_consume {Token : Type} {s : Scheduler Token} (h : WF s) (tps : List TimePoint) :
    WF (s.consume tps).2 := by
  rw [consume_snd_eq]
  refine WF_foldl_reinsert _ _ ?_ fun t ht => taskBounds_of_collected h ht
  have hsub := foldl_eraseKey_sublist tps s.tasks
  refine ⟨h.interval_pos, h.now_nonneg, keysSorted_foldl_eraseKey h.sorted, ?_, ?_, ?_, ?_⟩
  · intro kv hkv
    exact h.buckets_nonempty kv (hsub.subset hkv)
  · intro kv hkv t0 ht0
    exact h.keys_correct kv (hsub.subset hkv) t0 ht0
  · intro kv hkv t0 ht0
    exact h.intervals_nonneg kv (hsub.subset hkv) t0 ht0
  · intro kv hkv t0 ht0
    exact h.offsets_nonneg kv (hsub.subset hkv) t0 ht0

theorem WF_skipLoop {Token : Type} :
    ∀ (fuel : Nat) (s : Scheduler Token) (acc : List Token)
      (r : List Token × Scheduler Token),
      WF s → Scheduler.skipLoop s acc fuel = Option.some r → WF r.2 := by
  intro fuel
  induction fuel with
  | zero => intro s acc r _ heq; simp [Scheduler.skipLoop] at heq
  | succ fuel ih =>
    intro s acc r h heq
    rw [Scheduler.skipLoop] at heq
    cases ha : s.next_action with
    | Skip tps =>
      rw [ha] at heq
      exact ih _ _ _ (WF_consume h tps) heq
    | None =>
      rw [ha] at heq
      rcases Option.some.injEq .. ▸ heq with rfl
      exact h
    | Wait d =>
      rw [ha] at heq
      rcases Option.some.injEq .. ▸ heq with rfl
      exact h
    | Yield tp =>
      rw [ha] at heq
      rcases Option.some.injEq .. ▸ heq with rfl
      exact h

theorem WF_nextFuel {Token : Type} {fuel : Nat} {s s' : Scheduler Token}
    {r : Option (Schedule Token)} (h : WF s)
    (heq : Scheduler.nextFuel fuel s = Option.some (r, s')) : WF s' := by
  rw [Scheduler.nextFuel] at heq
  cases ha : s.next_action with
  | None =>
    simp only [ha] at heq
    obtain ⟨rfl, rfl⟩ := Prod.mk.inj (Option.some.inj heq)
    exact h
  | Wait d =>
    simp only [ha] at heq
    obtain ⟨rfl, rfl⟩ := Prod.mk.inj (Option.some.inj heq)
    exact h
  | Skip tps =>
    simp only [ha] at heq
    rcases Option.map_eq_some'.mp heq with ⟨p, hp, heq'⟩
    obtain ⟨rfl, rfl⟩ := Prod.mk.inj heq'
    exact WF_skipLoop fuel s [] p h hp
  | Yield tp =>
    simp only [ha] at heq
    obtain ⟨rfl, rfl⟩ := Prod.mk.inj (Option.some.inj heq)
    exact WF_consume h [tp]

theorem reachable_WF {Token : Type} [DecidableEq Token] {s : Scheduler Token}
    (h : Reachable s) : WF s := by
  induction h with
  | fresh w hw => exact WF_fresh hw
  | after s d tok hd _ ih => exact WF_after ih hd tok
  | every s d tok hd _ ih => exact WF_every ih hd tok
  | next s fuel r s' _ heq ih => exact WF_nextFuel ih heq
  | cancel s tok _ ih => exact WF_cancel ih tok
  | fastForward s d hd _ ih => exact WF_fastForward ih hd

/-! ### C7 -/

/-- C7: on every state reachable by the public operations, every stored
`TimePoint` key maps to a non-empty task collection — no operation leaves
an empty bucket behind. -/
theorem reachable_no_empty_buckets {Token : Type} [DecidableEq Token] {s : Scheduler Token}
    (h : Reachable s) : ∀ kv ∈ s.tasks, kv.2 ≠ ([] : List (Task Token)) :=
  (reachable_WF h).buckets_nonempty

/-- Witness for C7 at a concrete reachable state built by two registrations
and a cancellation. -/
theorem reachable_no_empty_buckets_witness :
    Reachable c7_state ∧ ∀ kv ∈ c7_state.tasks, kv.2 ≠ ([] : List (Task Nat)) := by
  have hr : Reachable c7_state :=
    Reachable.cancel _ 2
      (Reachable.after _ 5 2 (by decide)
        (Reachable.after _ 0 1 (by decide) (Reachable.fresh 2 (by decide))))
  exact ⟨hr, reachable_no_empty_buckets hr⟩

/-! ### Inversion of `next_action` and the accumulator of the skip loop -/

theorem next_action_skip_inv {Token : Type} {s : Scheduler Token} {tps : List TimePoint}
    (h : s.next_action = SchedulerAction.Skip tps) :
    ∃ k0 ts0 rest, s.tasks = (k0, ts0) :: rest ∧ k0 < s.to_time_point s.now ∧
      tps = (s.tasks.takeWhile (fun kv => kv.1 < s.to_time_point s.now)).map (·.1) ∧
      tps = k0 :: ((rest.takeWhile (fun kv => kv.1 < s.to_time_point s.now)).map (·.1)) := by
  rcases hm : s.tasks with _ | ⟨⟨k0, ts0⟩, rest⟩
  · simp [Scheduler.next_action, hm] at h
  · simp only [Scheduler.next_action, hm] at h
    split_ifs at h with h1 h2
    injection h with htps
    refine ⟨k0, ts0, rest, rfl, h2, htps.symm, ?_⟩
    rw [← htps]
    simp [List.takeWhile_cons, h2]

theorem next_action_yield_inv {Token : Type} {s : Scheduler Token} {tp : TimePoint}
    (h : s.next_action = SchedulerAction.Yield tp) :
    ∃ ts0 rest, s.tasks = (tp, ts0) :: rest := by
  rcases hm : s.tasks with _ | ⟨⟨k0, ts0⟩, rest⟩
  · simp [Scheduler.next_action, hm] at h
  · simp only [Scheduler.next_action, hm] at h
    split_ifs at h with h1 h2
    injection h with hk
    exact ⟨ts0, rest, by rw [hk]⟩

theorem skipLoop_acc_prefix {Token : Type} :
    ∀ (fuel : Nat) (s : Scheduler Token) (acc : List Token) (r : List Token × Scheduler Token),
      Scheduler.skipLoop s acc fuel = Option.some r → ∃ rest, r.1 = acc ++ rest := by
  intro fuel
  induction fuel with
  | zero => intro s acc r heq; simp [Scheduler.skipLoop] at heq
  | succ fuel ih =>
    intro s acc r heq
    rw [Scheduler.skipLoop] at heq
    cases ha : s.next_action with
    | Skip tps =>
      rw [ha] at heq
      rcases ih (s.consume tps).2 (acc ++ (s.consume tps).1) r heq with ⟨rest, hres⟩
      exact ⟨(s.consume tps).1 ++ rest, by rw [hres, List.append_assoc]⟩
    | None =>
      rw [ha] at heq
      rcases Option.some.injEq .. ▸ heq with rfl
      exact ⟨[], (List.append_nil acc).symm⟩
    | Wait d =>
      rw [ha] at heq
      rcases Option.some.injEq .. ▸ heq with rfl
      exact ⟨[], (List.append_nil acc).symm⟩
    | Yield tp =>
      rw [ha] at heq
      rcases Option.some.injEq .. ▸ heq with rfl
      exact ⟨[], (List.append_nil acc).symm⟩

/-! ### C10 -/

/-- C10: a fired poll outcome (`Current` or `Overrun`) on a reachable state
never carries an empty token list: every stored bucket is non-empty and a
fired outcome drains at least one bucket. -/
theorem fired_tokens_nonempty {Token : Type} [DecidableEq Token] {s s' : Scheduler Token}
    {fuel : Nat} {r : Schedule Token} {toks : List Token} (hr : Reachable s)
    (hn : Scheduler.nextFuel fuel s = Option.some (Option.some r, s'))
    (hf : firedTokens r = Option.some toks) : toks ≠ [] := by
  have hWF := reachable_WF hr
  rw [Scheduler.nextFuel] at hn
  cases ha : s.next_action with
  | None =>
    simp only [ha] at hn
    obtain ⟨h1, -⟩ := Prod.mk.inj (Option.some.inj hn)
    exact Option.noConfusion h1
  | Wait d =>
    simp only [ha] at hn
    obtain ⟨h1, -⟩ := Prod.mk.inj (Option.some.inj hn)
    obtain rfl := (Option.some.inj h1).symm
    simp [firedTokens] at hf
  | Yield tp =>
    simp only [ha] at hn
    obtain ⟨h1, -⟩ := Prod.mk.inj (Option.some.inj hn)
    obtain rfl := (Option.some.inj h1).symm
    simp only [firedTokens] at hf
    obtain rfl := (Option.some.inj hf).symm
    rcases next_action_yield_inv ha with ⟨ts0, rest, hm⟩
    have hmem0 : ((tp, ts0) : TimePoint × List (Task Token)) ∈ s.tasks := by
      rw [hm]; exact List.mem_cons_self _ _
    have hlk : lookupTasks tp s.tasks = ts0 := lookupTasks_eq_of_mem hWF.sorted hmem0
    have hne : ts0 ≠ [] := hWF.buckets_nonempty (tp, ts0) hmem0
    rcases List.exists_mem_of_ne_nil ts0 hne with ⟨t0, ht0⟩
    have hcol : t0 ∈ (([tp].map (fun tp => lookupTasks tp s.tasks)).flatten) :=
      List.mem_flatten.mpr ⟨ts0, List.mem_map.mpr ⟨tp, List.mem_singleton.mpr rfl, hlk⟩, ht0⟩
    have hX : t0.token ∈ (s.consume [tp]).1 := by
      rw [consume_fst_eq]
      exact List.mem_map.mpr ⟨t0, (sortRO_perm _).mem_iff.mpr hcol, rfl⟩
    exact List.ne_nil_of_mem hX
  | Skip tps =>
    simp only [ha] at hn
    rcases Option.map_eq_some'.mp hn with ⟨p, hp, heq'⟩
    obtain ⟨h1, -⟩ := Prod.mk.inj heq'
    obtain rfl := (Option.some.inj h1).symm
    simp only [firedTokens] at hf
    obtain rfl := (Option.some.inj hf).symm
    cases fuel with
    | zero => simp [Scheduler.skipLoop] at hp
    | succ fuel =>
      rw [Scheduler.skipLoop] at hp
      rw [ha] at hp
      rcases skipLoop_acc_prefix fuel (s.consume tps).2 ([] ++ (s.consume tps).1) p hp with
        ⟨rest, hres⟩
      rcases next_action_skip_inv ha with ⟨k0, ts0, rest0, hm, -, -, htps'⟩
      have hmem0 : ((k0, ts0) : TimePoint × List (Task Token)) ∈ s.tasks := by
        rw [hm]; exact List.mem_cons_self _ _
      have hlk : lookupTasks k0 s.tasks = ts0 := lookupTasks_eq_of_mem hWF.sorted hmem0
      have hne : ts0 ≠ [] := hWF.buckets_nonempty (k0, ts0) hmem0
      rcases List.exists_mem_of_ne_nil ts0 hne with ⟨t0, ht0⟩
      have hcol : t0 ∈ ((tps.map (fun tp => lookupTasks tp s.tasks)).flatten) :=
        List.mem_flatten.mpr ⟨ts0,
          List.mem_map.mpr ⟨k0, by rw [htps']; exact List.mem_cons_self _ _, hlk⟩, ht0⟩
      have hX : t0.token ∈ (s.consume tps).1 := by
        rw [consume_fst_eq]
        exact List.mem_map.mpr ⟨t0, (sortRO_perm _).mem_iff.mpr hcol, rfl⟩
      have hX' : t0.token ∈ p.1 := by
        rw [hres]
        exact List.mem_append_left _ (List.mem_append_right _ hX)
      exact List.ne_nil_of_mem hX'

/-- Witness for C10: a reachable state with one task due now; the poll
fires `Current [6]`, which is non-empty. -/
theorem fired_tokens_nonempty_witness :
    Reachable c10_state ∧
    Scheduler.nextFuel 3 c10_state =
      Option.some (Option.some (Schedule.Current [6]), ⟨2, [], 0⟩) ∧
    firedTokens (Schedule.Current [6]) = Option.some [6] ∧
    ([6] : List Nat) ≠ [] := by
  have hr : Reachable c10_state :=
    Reachable.after _ 0 6 (by decide) (Reachable.fresh 2 (by decide))
  refine ⟨hr, rfl, rfl, ?_⟩
  exact @fired_tokens_nonempty Nat _ c10_state ⟨2, [], 0⟩ 3 (Schedule.Current [6]) [6] hr rfl rfl

/-! ### C2: divergence of the skip loop on a zero-interval perpetual task -/

theorem c2_consume_fixpoint : c2_start.consume [0] = ([7], c2_start) := rfl

theorem c2_skipLoop_none :
    ∀ (fuel : Nat) (acc : List Nat), Scheduler.skipLoop c2_start acc fuel = Option.none := by
  intro fuel
  induction fuel with
  | zero => intro acc; rfl
  | succ fuel ih =>
    intro acc
    rw [Scheduler.skipLoop]
    have ha : c2_start.next_action = SchedulerAction.Skip [0] := rfl
    rw [ha]
    exact ih (acc ++ [7])

/-- C2 is false as stated: the reachable state `every(0, 7)` followed by a
clock advance past the task's bucket makes the overrun re-evaluation loop
of `next()` diverge — the zero-interval perpetual task is re-inserted into
the same overdue bucket forever, so no fuel bound makes the poll return. -/
theorem next_zero_interval_diverges : Reachable c2_start ∧ NextDiverges c2_start := by
  constructor
  · exact Reachable.fastForward _ 4 (by decide)
      (Reachable.every _ 0 7 (by decide) (Reachable.fresh 2 (by decide)))
  · intro fuel
    rw [Scheduler.nextFuel]
    have ha : c2_start.next_action = SchedulerAction.Skip [0] := rfl
    rw [ha, c2_skipLoop_none fuel []]
    rfl

/-! ### C2: the termination measure under positive perpetual intervals -/

theorem to_time_point_lt_iff {Token : Type} (s : Scheduler Token) {x : Int} {c : Nat}
    (hw : 0 < s.time_point_interval) (hx : 0 ≤ x) :
    s.to_time_point x < c ↔ x < s.time_point_interval * (c : Int) := by
  unfold Scheduler.to_time_point
  have hq : 0 ≤ x / s.time_point_interval := Int.ediv_nonneg hx hw.le
  constructor
  · intro h
    have hc : (x / s.time_point_interval : Int) < (c : Int) := by
      rw [← Int.toNat_of_nonneg hq]
      exact_mod_cast h
    have := (Int.ediv_lt_iff_lt_mul hw).mp hc
    linarith [mul_comm (c : Int) s.time_point_interval]
  · intro h
    have hc : (x / s.time_point_interval : Int) < (c : Int) :=
      (Int.ediv_lt_iff_lt_mul hw).mpr (by linarith [mul_comm (c : Int) s.time_point_interval])
    rw [← Int.toNat_of_nonneg hq] at hc
    exact_mod_cast hc

theorem mapMeasure_cons {Token : Type} (c : TimePoint) (cw : Int)
    (kv : TimePoint × List (Task Token)) (m : TaskMap Token) :
    mapMeasure c cw (kv :: m) = bucketCost c cw kv + mapMeasure c cw m := by
  simp [mapMeasure]

theorem mapMeasure_insertTask {Token : Type} (c : TimePoint) (cw : Int) (k : TimePoint)
    (t : Task Token) :
    ∀ (m : TaskMap Token), mapMeasure c cw (insertTask k t m) =
      mapMeasure c cw m + (if k < c then taskCost cw t else 0) := by
  intro m
  induction m with
  | nil =>
    simp only [insertTask, mapMeasure, List.map_cons, List.map_nil, List.sum_cons,
      List.sum_nil, bucketCost]
    by_cases h3 : k < c <;> simp [h3]
  | cons hd rest ih =>
    obtain ⟨k', ts'⟩ := hd
    simp only [insertTask]
    by_cases h1 : k < k'
    · rw [if_pos h1, mapMeasure_cons, mapMeasure_cons]
      have hb : bucketCost c cw (k, [t]) = (if k < c then taskCost cw t else 0) := by
        unfold bucketCost
        by_cases h3 : k < c <;> simp [h3]
      omega
    · rw [if_neg h1]
      by_cases h2 : k = k'
      · rw [if_pos h2]
        subst h2
        rw [mapMeasure_cons, mapMeasure_cons]
        have hb : bucketCost c cw (k, ts' ++ [t]) =
            bucketCost c cw (k, ts') + (if k < c then taskCost cw t else 0) := by
          unfold bucketCost
          by_cases h3 : k < c <;> simp [h3]
        omega
      · rw [if_neg h2, mapMeasure_cons, mapMeasure_cons, ih]
        omega

theorem foldl_reinsert_measure {Token : Type} (c : TimePoint) (cw : Int) :
    ∀ (l : List (Task Token)) (st : Scheduler Token),
      (∀ t ∈ l, t.schedule < cw ∧ (t.bond = TaskBond.Perpetual → 0 < t.interval)) →
      mapMeasure c cw (List.foldl Scheduler.reinsert st l).tasks + l.length ≤
        mapMeasure c cw st.tasks + (l.map (taskCost cw)).sum := by
  intro l
  induction l with
  | nil => intro st _; simp
  | cons t0 ts ih =>
    intro st hb
    have hb0 := hb t0 (List.mem_cons_self _ _)
    have hsch := hb0.1
    have hcost : 1 ≤ taskCost cw t0 := by
      unfold taskCost
      unfold Task.schedule at hsch
      omega
    have hstep : mapMeasure c cw (Scheduler.reinsert st t0).tasks + 1 ≤
        mapMeasure c cw st.tasks + taskCost cw t0 := by
      cases hbond : t0.bond with
      | OneOff =>
        have hre : Scheduler.reinsert st t0 = st := by
          unfold Scheduler.reinsert
          rw [hbond]
        rw [hre]
        omega
      | Perpetual =>
        have hre : Scheduler.reinsert st t0 = st.scheduleTask t0.next := by
          unfold Scheduler.reinsert
          rw [hbond]
        have htasks : (st.scheduleTask t0.next).tasks =
            insertTask (st.to_time_point t0.next.schedule) t0.next st.tasks := rfl
        rw [hre, htasks, mapMeasure_insertTask]
        have hiv : 0 < t0.interval := hb0.2 hbond
        have hbound : (if st.to_time_point t0.next.schedule < c
            then taskCost cw t0.next else 0) + 1 ≤ taskCost cw t0 := by
          split_ifs
          · simp only [taskCost, Task.next, Task.schedule] at *
            omega
          · omega
        omega
    have ihh := ih (Scheduler.reinsert st t0) fun t ht => hb t (List.mem_cons_of_mem _ ht)
    simp only [List.foldl_cons, List.map_cons, List.sum_cons, List.length_cons]
    omega

theorem eraseAll_takeWhile {Token : Type} (p : TimePoint × List (Task Token) → Bool) :
    ∀ (m : TaskMap Token),
      List.foldl (fun acc tp => eraseKey tp acc) m ((m.takeWhile p).map (·.1)) =
        m.dropWhile p := by
  intro m
  induction m with
  | nil => simp
  | cons hd rest ih =>
    obtain ⟨k0, ts0⟩ := hd
    by_cases hp : p (k0, ts0)
    · rw [List.takeWhile_cons, if_pos hp, List.dropWhile_cons, if_pos hp]
      simp only [List.map_cons, List.foldl_cons]
      have he : eraseKey k0 ((k0, ts0) :: rest) = rest := by simp [eraseKey]
      rw [he]
      exact ih
    · rw [List.takeWhile_cons, if_neg hp, List.dropWhile_cons, if_neg hp]
      simp

theorem dropWhile_keys_not_lt {Token : Type} {c : TimePoint} :
    ∀ {m : TaskMap Token}, KeysSorted m →
      ∀ kv ∈ m.dropWhile (fun kv => kv.1 < c), ¬ kv.1 < c := by
  intro m
  induction m with
  | nil => intro _ kv hkv; simp at hkv
  | cons hd rest ih =>
    intro hs kv hkv
    rcases List.pairwise_cons.mp hs with ⟨hhead, htail⟩
    rw [List.dropWhile_cons] at hkv
    by_cases hp : hd.1 < c
    · rw [if_pos (by simpa using hp)] at hkv
      exact ih htail kv hkv
    · rw [if_neg (by simpa using hp)] at hkv
      rcases List.mem_cons.mp hkv with rfl | hkv'
      · exact hp
      · have h3 : hd.1 < kv.1 := hhead kv hkv'
        intro hlt
        exact hp (h3.trans hlt)

theorem mapMeasure_eq_zero {Token : Type} {c : TimePoint} {cw : Int} :
    ∀ {m : TaskMap Token}, (∀ kv ∈ m, ¬ kv.1 < c) → mapMeasure c cw m = 0 := by
  intro m
  induction m with
  | nil => intro _; rfl
  | cons hd rest ih =>
    intro h
    rw [mapMeasure_cons]
    have h0 : bucketCost c cw hd = 0 := by
      unfold bucketCost
      rw [if_neg (h hd (List.mem_cons_self _ _))]
    rw [h0, ih fun kv hkv => h kv (List.mem_cons_of_mem _ hkv)]

theorem lookup_map_takeWhile {Token : Type} (p : TimePoint × List (Task Token) → Bool) :
    ∀ (m : TaskMap Token), KeysSorted m →
      ((m.takeWhile p).map (·.1)).map (fun tp => lookupTasks tp m) =
        (m.takeWhile p).map (·.2) := by
  intro m
  induction m with
  | nil => intro _; simp
  | cons hd rest ih =>
    obtain ⟨k0, ts0⟩ := hd
    intro hs
    rcases List.pairwise_cons.mp hs with ⟨hhead, htail⟩
    by_cases hp : p (k0, ts0)
    · rw [List.takeWhile_cons, if_pos hp]
      simp only [List.map_cons]
      have h1 : lookupTasks k0 ((k0, ts0) :: rest) = ts0 := by simp [lookupTasks]
      have h2 : ∀ tp ∈ (rest.takeWhile p).map (·.1),
          lookupTasks tp ((k0, ts0) :: rest) = lookupTasks tp rest := by
        intro tp htp
        rcases List.mem_map.mp htp with ⟨kv, hkv, rfl⟩
        have hkv' : kv ∈ rest := (List.takeWhile_sublist p).subset hkv
        have hlt : k0 < kv.1 := hhead kv hkv'
        simp [lookupTasks, ne_of_lt hlt]
      rw [h1]
      congr 1
      rw [List.map_congr_left h2]
      exact ih htail
    · rw [List.takeWhile_cons, if_neg hp]
      simp

theorem sum_cost_flatten_snd {Token : Type} (c : TimePoint) (cw : Int) :
    ∀ (l : TaskMap Token), (∀ kv ∈ l, kv.1 < c) →
      (((l.map (·.2)).flatten.map (taskCost cw)).sum) = mapMeasure c cw l := by
  intro l
  induction l with
  | nil => intro _; rfl
  | cons hd rest ih =>
    intro h
    simp only [List.map_cons, List.flatten_cons, List.map_append, List.sum_append]
    rw [mapMeasure_cons]
    have hh := h hd (List.mem_cons_self _ _)
    have hb : bucketCost c cw hd = (hd.2.map (taskCost cw)).sum := by
      unfold bucketCost
      rw [if_pos hh]
    rw [hb, ih fun kv hkv => h kv (List.mem_cons_of_mem _ hkv)]

theorem mapMeasure_takeWhile_eq {Token : Type} (c : TimePoint) (cw : Int) {m : TaskMap Token}
    (hs : KeysSorted m) :
    mapMeasure c cw (m.takeWhile (fun kv => kv.1 < c)) = mapMeasure c cw m := by
  have happ : ∀ (a b : TaskMap Token),
      mapMeasure c cw (a ++ b) = mapMeasure c cw a + mapMeasure c cw b := by
    intro a b
    unfold mapMeasure
    rw [List.map_append, List.sum_append]
  have h0 : mapMeasure c cw (m.dropWhile (fun kv => kv.1 < c)) = 0 :=
    mapMeasure_eq_zero (dropWhile_keys_not_lt hs)
  conv_rhs => rw [← List.takeWhile_append_dropWhile (fun kv => decide (kv.1 < c)) m]
  rw [happ]
  omega

theorem collected_below {Token : Type} {s : Scheduler Token} (h : WF s) {tps : List TimePoint}
    (htps : tps = (s.tasks.takeWhile (fun kv => kv.1 < s.to_time_point s.now)).map (·.1))
    {t : Task Token} (ht : t ∈ (tps.map (fun tp => lookupTasks tp s.tasks)).flatten) :
    t.schedule < s.to_duration (s.to_time_point s.now) := by
  rcases List.mem_flatten.mp ht with ⟨l, hl, htl⟩
  rcases List.mem_map.mp hl with ⟨tp, htp, rfl⟩
  rcases lookupTasks_sound htl with ⟨ts, hmem, htin⟩
  have hkey : tp = s.to_time_point t.schedule := h.keys_correct (tp, ts) hmem t htin
  have htplt : tp < s.to_time_point s.now := by
    rw [htps] at htp
    rcases List.mem_map.mp htp with ⟨kv, hkv, rfl⟩
    exact of_decide_eq_true
      (@List.mem_takeWhile_imp _ (fun kv => decide (kv.1 < s.to_time_point s.now)) s.tasks kv hkv)
  have hsch : 0 ≤ t.schedule :=
    add_nonneg (h.offsets_nonneg (tp, ts) hmem t htin) (h.intervals_nonneg (tp, ts) hmem t htin)
  have hlt := (to_time_point_lt_iff s h.interval_pos hsch).mp (hkey ▸ htplt)
  simpa [Scheduler.to_duration] using hlt

theorem collected_perp_pos {Token : Type} {s : Scheduler Token} (hp : PerpetualPos s)
    {tps : List TimePoint} {t : Task Token}
    (ht : t ∈ (tps.map (fun tp => lookupTasks tp s.tasks)).flatten)
    (hb : t.bond = TaskBond.Perpetual) : 0 < t.interval := by
  rcases List.mem_flatten.mp ht with ⟨l, hl, htl⟩
  rcases List.mem_map.mp hl with ⟨tp, -, rfl⟩
  rcases lookupTasks_sound htl with ⟨ts, hmem, htin⟩
  exact hp (tp, ts) hmem t htin hb

theorem consume_skip_measure_lt {Token : Type} {s : Scheduler Token} (h : WF s)
    (hp : PerpetualPos s) {tps : List TimePoint}
    (ha : s.next_action = SchedulerAction.Skip tps) :
    stateMeasure (s.consume tps).2 < stateMeasure s := by
  obtain ⟨k0, ts0, rest0, hm, hklt, htps, htps'⟩ := next_action_skip_inv ha
  have hfields := consume_fields s tps
  have hsm : stateMeasure s =
      mapMeasure (s.to_time_point s.now) (s.to_duration (s.to_time_point s.now)) s.tasks := rfl
  have h1 : (s.consume tps).2.to_time_point (s.consume tps).2.now = s.to_time_point s.now := by
    rw [hfields.2]
    exact to_time_point_congr hfields.1 s.now
  have h2 : (s.consume tps).2.to_duration (s.to_time_point s.now) =
      s.to_duration (s.to_time_point s.now) := by
    unfold Scheduler.to_duration
    rw [hfields.1]
  have hsm' : stateMeasure (s.consume tps).2 =
      mapMeasure (s.to_time_point s.now) (s.to_duration (s.to_time_point s.now))
        (s.consume tps).2.tasks := by
    unfold stateMeasure
    rw [h1, h2]
  have hbelow : ∀ t ∈ sortRO ((tps.map (fun tp => lookupTasks tp s.tasks)).flatten),
      t.schedule < s.to_duration (s.to_time_point s.now) ∧
        (t.bond = TaskBond.Perpetual → 0 < t.interval) := by
    intro t ht
    have htX : t ∈ (tps.map (fun tp => lookupTasks tp s.tasks)).flatten :=
      (sortRO_perm _).mem_iff.mp ht
    exact ⟨collected_below h htps htX, fun hb => collected_perp_pos hp htX hb⟩
  have hM2 := foldl_reinsert_measure (s.to_time_point s.now)
      (s.to_duration (s.to_time_point s.now))
      (sortRO ((tps.map (fun tp => lookupTasks tp s.tasks)).flatten))
      { s with tasks := List.foldl (fun m tp => eraseKey tp m) s.tasks tps } hbelow
  have hrm : List.foldl (fun m tp => eraseKey tp m) s.tasks tps =
      s.tasks.dropWhile (fun kv => kv.1 < s.to_time_point s.now) := by
    rw [htps]
    exact eraseAll_takeWhile _ s.tasks
  have hM0 : mapMeasure (s.to_time_point s.now) (s.to_duration (s.to_time_point s.now))
      ({ s with tasks := List.foldl (fun m tp => eraseKey tp m) s.tasks tps } :
        Scheduler Token).tasks = 0 := by
    show mapMeasure (s.to_time_point s.now) (s.to_duration (s.to_time_point s.now))
      (List.foldl (fun m tp => eraseKey tp m) s.tasks tps) = 0
    rw [hrm]
    exact mapMeasure_eq_zero (dropWhile_keys_not_lt h.sorted)
  have hk : ∀ kv ∈ s.tasks.takeWhile (fun kv => kv.1 < s.to_time_point s.now),
      kv.1 < s.to_time_point s.now := fun kv hkv =>
    of_decide_eq_true (@List.mem_takeWhile_imp _ _ _ kv hkv)
  have hsumX : (((tps.map (fun tp => lookupTasks tp s.tasks)).flatten).map
      (taskCost (s.to_duration (s.to_time_point s.now)))).sum =
      mapMeasure (s.to_time_point s.now) (s.to_duration (s.to_time_point s.now)) s.tasks := by
    rw [htps, lookup_map_takeWhile _ s.tasks h.sorted,
      sum_cost_flatten_snd _ _ _ hk,
      mapMeasure_takeWhile_eq _ _ h.sorted]
  have hsumL : ((sortRO ((tps.map (fun tp => lookupTasks tp s.tasks)).flatten)).map
      (taskCost (s.to_duration (s.to_time_point s.now)))).sum =
      mapMeasure (s.to_time_point s.now) (s.to_duration (s.to_time_point s.now)) s.tasks := by
    rw [← hsumX]
    exact ((sortRO_perm _).map _).sum_eq
  have hmem0 : ((k0, ts0) : TimePoint × List (Task Token)) ∈ s.tasks := by
    rw [hm]; exact List.mem_cons_self _ _
  have hts0 : ts0 ≠ [] := h.buckets_nonempty (k0, ts0) hmem0
  have hlk : lookupTasks k0 s.tasks = ts0 := lookupTasks_eq_of_mem h.sorted hmem0
  rcases List.exists_mem_of_ne_nil ts0 hts0 with ⟨t0, ht0⟩
  have ht0X : t0 ∈ (tps.map (fun tp => lookupTasks tp s.tasks)).flatten :=
    List.mem_flatten.mpr ⟨ts0,
      List.mem_map.mpr ⟨k0, by rw [htps']; exact List.mem_cons_self _ _, hlk⟩, ht0⟩
  have hLlen : 1 ≤ (sortRO ((tps.map (fun tp => lookupTasks tp s.tasks)).flatten)).length :=
    List.length_pos.mpr (List.ne_nil_of_mem ((sortRO_perm _).mem_iff.mpr ht0X))
  rw [hsm', hsm, consume_snd_eq]
  omega

theorem perpetualPos_consume {Token : Type} {s : Scheduler Token} (h : WF s)
    (hp : PerpetualPos s) (tps : List TimePoint) : PerpetualPos (s.consume tps).2 := by
  intro kv hkv t ht hb
  have hti : TaskIn kv.1 t (s.consume tps).2.tasks :=
    ⟨kv.2, by rw [Prod.mk.eta]; exact hkv, ht⟩
  rcases consume_taskIn_elim s tps h.sorted hti with
    ⟨-, ts1, hmem1, ht1⟩ | ⟨k, -, t0, ⟨ts1, hmem1, ht1⟩, hb0, rfl, -⟩
  · exact hp (kv.1, ts1) hmem1 t ht1 hb
  · exact hp (k, ts1) hmem1 t0 ht1 hb0

theorem skipLoop_total {Token : Type} :
    ∀ (n : Nat) (s : Scheduler Token) (acc : List Token),
      WF s → PerpetualPos s → stateMeasure s ≤ n →
      ∃ r, Scheduler.skipLoop s acc (n + 1) = Option.some r := by
  intro n
  induction n with
  | zero =>
    intro s acc h hp hM
    rw [Scheduler.skipLoop]
    cases ha : s.next_action with
    | Skip tps =>
      exact absurd (consume_skip_measure_lt h hp ha) (by omega)
    | None => exact ⟨(acc, s), rfl⟩
    | Wait d => exact ⟨(acc, s), rfl⟩
    | Yield tp => exact ⟨(acc, s), rfl⟩
  | succ n ih =>
    intro s acc h hp hM
    rw [Scheduler.skipLoop]
    cases ha : s.next_action with
    | Skip tps =>
      have hlt := consume_skip_measure_lt h hp ha
      rcases ih (s.consume tps).2 (acc ++ (s.consume tps).1)
          (WF_consume h tps) (perpetualPos_consume h hp tps) (by omega) with ⟨r, hr⟩
      exact ⟨r, hr⟩
    | None => exact ⟨(acc, s), rfl⟩
    | Wait d => exact ⟨(acc, s), rfl⟩
    | Yield tp => exact ⟨(acc, s), rfl⟩

/-- C2 (amended): on every reachable scheduler state in which every
Perpetual task has a strictly positive interval, the poll terminates: some
fuel bound makes the fuelled `next` (whose skip loop mirrors the unbounded
`while let Skip` loop of the source) return a result.  The counterexample
shows the restriction to positive intervals is necessary: `every(0, tok)`
is reachable and makes the loop diverge. -/
theorem next_terminates_on_positive_intervals {Token : Type} [DecidableEq Token]
    {s : Scheduler Token} (hr : Reachable s) (hp : PerpetualPos s) :
    ∃ fuel r, Scheduler.nextFuel fuel s = Option.some r := by
  have h := reachable_WF hr
  refine ⟨stateMeasure s + 1, ?_⟩
  rw [Scheduler.nextFuel]
  cases ha : s.next_action with
  | None => exact ⟨(Option.none, s), rfl⟩
  | Wait d => exact ⟨(Option.some (Schedule.NextIn d), s), rfl⟩
  | Yield tp =>
    exact ⟨(Option.some (Schedule.Current (s.consume [tp]).1), (s.consume [tp]).2), rfl⟩
  | Skip tps =>
    rcases skipLoop_total (stateMeasure s) s [] h hp (le_refl _) with ⟨p, hpl⟩
    exact ⟨(Option.some (Schedule.Overrun p.1), p.2), by rw [hpl]; rfl⟩

/-- Witness for the amended C2 at a reachable overdue state whose single
perpetual task has interval 1. -/
theorem next_terminates_on_positive_intervals_witness :
    Reachable c2_wit_state ∧ PerpetualPos c2_wit_state ∧
    (∃ fuel r, Scheduler.nextFuel fuel c2_wit_state = Option.some r) := by
  have hr : Reachable c2_wit_state :=
    Reachable.fastForward _ 8 (by decide)
      (Reachable.every _ 1 3 (by decide) (Reachable.fresh 2 (by decide)))
  have hp : PerpetualPos c2_wit_state := by
    unfold PerpetualPos
    decide
  exact ⟨hr, hp, next_terminates_on_positive_intervals hr hp⟩

end TokenScheduler
